import Mathlib

/-!
Shallow embedding of the PRISM analysis pipeline (`prism.py`, class `Engine`).

Python floats are modelled as exact real numbers (`ℝ`); the two helper
stages that are pure rational arithmetic (`clean`, `calc_stability`,
`fit`) are stated over any linear ordered field so that they stay
executable at `ℚ`.  Float `NaN`/`inf` do not exist in this idealisation,
so the `math.isnan`/`math.isinf` tests of the source are identically
false here; the `try/except` wrappers of the source never fire in exact
arithmetic except where a genuine division by zero or index error occurs
in Python, and those places are modelled with `Option`.
-/

namespace Prism

variable {α : Type} [LinearOrderedField α]

/-- Engine.batch_sz: configured batch size. -/
def batch_sz : ℕ := 1000

/-- Engine.z_th: the z-score threshold used by `anom`. -/
def z_th : ℝ := 3.0

/-- One step of `Engine.clean`'s loop: a value is kept unless
`math.isnan(v) or math.isinf(v) or abs(v) > 1e15`; in exact arithmetic
only the magnitude test can trigger.  Removed values are counted. -/
def cleanStep (acc : List α × ℕ) (v : α) : List α × ℕ :=
  if |v| > 1e15 then (acc.1, acc.2 + 1) else (acc.1 ++ [v], acc.2)

/-- Engine.clean: filters out-of-range values, counting removals, and
returns the sentinel `[0]` instead of an empty result
(`return clean if clean else [0], inv`). -/
def clean (d : List α) : List α × ℕ :=
  let r := d.foldl cleanStep ([], 0)
  (if r.1 = [] then [0] else r.1, r.2)

/-- Banker's rounding to an integer, the behaviour of Python's `round`
on an exact value: round to nearest, ties to the even integer. -/
def roundHalfEven [FloorRing α] (x : α) : ℤ :=
  if x - Int.floor x < 1/2 then Int.floor x
  else if 1/2 < x - Int.floor x then Int.floor x + 1
  else if Even (Int.floor x) then Int.floor x else Int.floor x + 1

/-- Python's `round(x, 2)` on an exact value. -/
def pyRound2 [FloorRing α] (x : α) : α := (roundHalfEven (x * 100) : ℤ) / 100

/-- Engine.calc_stability: weighted stability score, rounded to two
decimals.  The danger map is `{'LOW': 100, 'HIGH': 50, 'CRITICAL': 0}`
with `.get` default 75. -/
def calc_stability [FloorRing α] (total_invalid total_points anomalies : α)
    (danger : String) : α :=
  let data_quality := if total_points > 0 then (total_points - total_invalid) / total_points * 100 else 0
  let anomaly_ratio := if total_points > 0 then anomalies / total_points * 100 else 0
  let danger_score : α :=
    if danger = "LOW" then 100 else if danger = "HIGH" then 50
    else if danger = "CRITICAL" then 0 else 75
  pyRound2 (data_quality * 0.5 + (100 - anomaly_ratio) * 0.3 + danger_score * 0.2)

/-- Stability score as the specification words it (a refinement
comparison definition written from the spec text, to be proved equal to
`calc_stability`): 0.5 times data quality plus 0.3 times (100 minus the
anomaly ratio) plus 0.2 times the danger score, rounded to 2 decimals,
with the ratios 0 unless the total is positive and the danger map LOW
to 100, HIGH to 50, CRITICAL to 0, anything else 75. -/
def stabilitySpec [FloorRing α] (total_invalid total_points anomalies : α)
    (danger : String) : α :=
  let data_quality := if total_points > 0 then (total_points - total_invalid) / total_points * 100 else 0
  let anomaly_ratio := if total_points > 0 then anomalies / total_points * 100 else 0
  let danger_score : α :=
    if danger = "LOW" then 100 else if danger = "HIGH" then 50
    else if danger = "CRITICAL" then 0 else 75
  pyRound2 (0.5 * data_quality + 0.3 * (100 - anomaly_ratio) + 0.2 * danger_score)

/-- Engine.fit: ordinary least squares of `y` against `x`.  Returns
`none` exactly where the Python code raises (`len(x) == 0` divides by
zero; `len(y) < len(x)` hits an index error on `y[i]`; note
`sum(y)/len(y)` cannot divide by zero once `1 ≤ len(x) ≤ len(y)`). -/
def fit (x y : List α) : Option (α × α × α) :=
  if x.length = 0 ∨ y.length < x.length then none
  else
    let mx := x.sum / x.length
    let my := y.sum / y.length
    let num := (List.zipWith (fun xi yi => (xi - mx) * (yi - my)) x y).sum
    let den := (x.map (fun xi => (xi - mx) ^ 2)).sum
    let a := if |den| > 1e-10 then num / den else 0
    let b := my - a * mx
    let pred := x.map (fun xi => a * xi + b)
    let ss_tot := (y.map (fun yi => (yi - my) ^ 2)).sum
    let ss_res := (List.zipWith (fun yi pi => (yi - pi) ^ 2) y pred).sum
    let r2 := if ss_tot > 1e-10 then 1 - ss_res / ss_tot else 0.5
    some (a, b, max 0 r2)

/-- The missing-marker sentinel set checked (after upper-casing) by
`Engine.parse`, as character lists: text is handled at the character
level throughout the parser model. -/
def missingMarkers : List (List Char) :=
  ["NULL", "NA", "NAN", "NONE", "N/A", "-"].map String.toList

/-- Python `str.strip()`: drop leading and trailing whitespace. -/
def trimWs (cs : List Char) : List Char :=
  ((cs.dropWhile Char.isWhitespace).reverse.dropWhile Char.isWhitespace).reverse

/-- Python `str.split()` with no separator: split on whitespace runs,
discarding empty fields. -/
def splitWs (cs : List Char) : List (List Char) :=
  (cs.foldr (fun c acc =>
    if c.isWhitespace then [] :: acc
    else
      match acc with
      | [] => [[c]]
      | t :: ts => (c :: t) :: ts) []).filter (fun t => !t.isEmpty)

/-- Result of a successful Python `float(p)`: a finite value, or one of
the non-finite spellings (inf, infinity, nan), which `parse` then
rejects with its `isnan`/`isinf` test.  Finite values are exact
rationals here; float overflow of huge literals to `inf` is not
modelled. -/
inductive PyFloat where
  | fin (q : ℚ)
  | nonfin

/-- Value of a digit string (none when a non-digit appears; the empty
string maps to 0 and is accepted — callers guard emptiness where Python
requires at least one digit). -/
def digitsVal (cs : List Char) : Option ℕ :=
  if cs.all Char.isDigit then
    some (cs.foldl (fun n c => 10 * n + (c.toNat - '0'.toNat)) 0)
  else none

/-- Mantissa part of the Python float grammar: digits with an optional
decimal point, at least one digit overall. -/
def parseMantissa (cs : List Char) : Option ℚ :=
  match cs.splitOn '.' with
  | [i] => if i = [] then none else (digitsVal i).map (fun n => (n : ℚ))
  | [i, f] =>
    if i = [] ∧ f = [] then none
    else
      match digitsVal i, digitsVal f with
      | some a, some b => some ((a : ℚ) + (b : ℚ) / 10 ^ f.length)
      | _, _ => none
  | _ => none

/-- Exponent part of the Python float grammar: an optional sign and a
nonempty digit string. -/
def parseExpPart (cs : List Char) : Option ℤ :=
  match cs with
  | '+' :: r => if r = [] then none else (digitsVal r).map (fun n => (n : ℤ))
  | '-' :: r => if r = [] then none else (digitsVal r).map (fun n => -(n : ℤ))
  | r => if r = [] then none else (digitsVal r).map (fun n => (n : ℤ))

/-- Unsigned Python float literal: mantissa with optional `e` exponent
(the input is already lower-cased). -/
def parseUnsigned (cs : List Char) : Option ℚ :=
  match cs.splitOn 'e' with
  | [m] => parseMantissa m
  | [m, ex] => do
    let q ← parseMantissa m
    let e ← parseExpPart ex
    pure (q * (10 : ℚ) ^ e)
  | _ => none

/-- Python `float(p)` on a whitespace-free token: optional sign, then
either a non-finite spelling or a decimal literal.  (Digit-group
underscores accepted by Python are not modelled.) -/
def parseFloat (tok : List Char) : Option PyFloat :=
  let cs := tok.map Char.toLower
  let sgnRest : ℚ × List Char :=
    match cs with
    | '+' :: r => (1, r)
    | '-' :: r => (-1, r)
    | r => (1, r)
  if sgnRest.2 = "inf".toList ∨ sgnRest.2 = "infinity".toList ∨
      sgnRest.2 = "nan".toList then some .nonfin
  else (parseUnsigned sgnRest.2).map (fun q => .fin (sgnRest.1 * q))

/-- The tokenisation done by `Engine.parse`: strip, drop the bracket
characters (`replace` with the empty string), turn commas into spaces,
and split on whitespace. -/
def tokenize (raw : String) : List (List Char) :=
  let r1 := trimWs raw.toList
  let r2 := r1.filter (fun c => !(c == '[' || c == ']'))
  let r3 := r2.map (fun c => if c = ',' then ' ' else c)
  splitWs r3

/-- One step of the token loop of `Engine.parse`: empty tokens, the
missing markers, unparsable tokens and non-finite values are counted as
invalid; finite values are appended. -/
def parseStep (acc : List ℚ × ℕ) (tok : List Char) : List ℚ × ℕ :=
  let p := trimWs tok
  if p.isEmpty then (acc.1, acc.2 + 1)
  else if p.map Char.toUpper ∈ missingMarkers then (acc.1, acc.2 + 1)
  else
    match parseFloat p with
    | some (.fin v) => (acc.1 ++ [v], acc.2)
    | some .nonfin => (acc.1, acc.2 + 1)
    | none => (acc.1, acc.2 + 1)

/-- The accepted values and invalid count accumulated by the token loop
of `Engine.parse`, before the empty-result sentinel is applied. -/
def parseScan (raw : String) : List ℚ × ℕ :=
  (tokenize raw).foldl parseStep ([], 0)

/-- Engine.parse: tokenise and scan, returning the sentinel `[0]`
instead of an empty value list (`return vals if vals else [0],
invalid_count`).  The body is wrapped in a blanket `try/except`
returning `([0], 1)` in the source; every operation of the body is
total here, so that branch is unreachable in the model. -/
def parse (raw : String) : List ℚ × ℕ :=
  let r := parseScan raw
  (if r.1 = [] then [0] else r.1, r.2)

/-- Parameter set carried by one candidate model of `Engine.analyze`
(the fields of the per-model dicts, besides `r2`); `failed` stands for
an except-branch entry, which records only the score -1. -/
inductive Params where
  | linear (a b : ℝ)
  | quad (a b c : ℝ)
  | exponential (amp rate : ℝ)
  | failed

/-- One entry of the dict `res` built by `Engine.analyze`: the model
tag, its goodness-of-fit score and its parameters. -/
structure Cand where
  tag : String
  r2 : ℝ
  params : Params

/-- The index sequence `x = list(range(len(y)))` used by `analyze`. -/
def xIdx (y : List ℝ) : List ℝ := (List.range y.length).map (fun i : ℕ => (i : ℝ))

/-- The LINEAR candidate: a direct call to `fit`; when `fit` raises
(empty input), the except branch records score -1. -/
noncomputable def linCand (y : List ℝ) : Cand :=
  match fit (xIdx y) y with
  | some (a, b, r2) => ⟨"LINEAR", r2, .linear a b⟩
  | none => ⟨"LINEAR", -1, .failed⟩

/-- The QUAD candidate, built by `analyze` only when `len(y) > 2`:
second finite differences give the leading coefficient, scored by the
same R² formula with degenerate-variance constant 0.3.  Under the
`len(y) > 2` guard every division of the source is well defined, so the
except branch of the source is unreachable in exact arithmetic. -/
noncomputable def quadCand (y : List ℝ) : Cand :=
  let x := xIdx y
  let d1 := (List.range (y.length - 1)).map (fun i => y.getD (i + 1) 0 - y.getD i 0)
  let d2 := (List.range (d1.length - 1)).map (fun i => d1.getD (i + 1) 0 - d1.getD i 0)
  let aq := if d2 ≠ [] then d2.sum / (2 * d2.length) else 0
  let bq := d1.headD 0 - aq
  let cq := y.headD 0
  let pred := x.map (fun xi => aq * xi * xi + bq * xi + cq)
  let my := y.sum / y.length
  let ss_tot := (y.map (fun yi => (yi - my) ^ 2)).sum
  let ss_res := (List.zipWith (fun yi pi => (yi - pi) ^ 2) y pred).sum
  let r2q := if ss_tot > 1e-10 then 1 - ss_res / ss_tot else 0.3
  ⟨"QUAD", max 0 r2q, .quad aq bq cq⟩

/-- The EXP candidate, built by `analyze` only when every value is
strictly positive: fit a line to `(x, log y)` and back-transform the
intercept; when `fit` raises (empty input), score -1. -/
noncomputable def expCand (y : List ℝ) : Cand :=
  match fit (xIdx y) (y.map Real.log) with
  | some (ae, be, re) => ⟨"EXP", re, .exponential (Real.exp be) ae⟩
  | none => ⟨"EXP", -1, .failed⟩

/-- The entries of `res` after the LINEAR one, in insertion order. -/
noncomputable def restCands (y : List ℝ) : List Cand :=
  (if 2 < y.length then [quadCand y] else []) ++
    (if ∀ v ∈ y, 0 < v then [expCand y] else [])

/-- All entries of the dict `res` of `Engine.analyze`, in insertion
order (LINEAR, then QUAD, then EXP). -/
noncomputable def candidates (y : List ℝ) : List Cand :=
  linCand y :: restCands y

/-- Python's `max(items, key=...)`: scan left to right, replacing the
current best only on a strictly larger key, so the first maximal
element wins. -/
noncomputable def pickFirst (c : Cand) : List Cand → Cand
  | [] => c
  | d :: ds => pickFirst (if c.r2 < d.r2 then d else c) ds

/-- Engine.analyze: the best entry of `res` under Python
`max(res.items(), key=lambda kv: kv[1].get('r2', -1))` (every entry has
an `r2` key, so the `.get` default never fires). -/
noncomputable def analyze (y : List ℝ) : Cand :=
  pickFirst (linCand y) (restCands y)

/-- One anomaly record of `Engine.anom`. -/
structure AnomRec where
  idx : ℕ
  val : ℝ
  z : ℝ
  sev : String

/-- The local `m` of `Engine.anom`: the population mean. -/
noncomputable def anomMean (y : List ℝ) : ℝ := y.sum / y.length

/-- The local `s` of `Engine.anom`: the population standard deviation
(computed only when `len(y) > 1`, else 1), replaced by 1 when it is not
above 1e-10. -/
noncomputable def anomDev (y : List ℝ) : ℝ :=
  let s0 := if 1 < y.length then
    Real.sqrt ((y.map (fun x => (x - anomMean y) ^ 2)).sum / y.length) else 1
  if s0 > 1e-10 then s0 else 1

/-- The per-sample test of the loop of `Engine.anom`: an indexed sample
becomes an anomaly record exactly when its absolute z-score exceeds the
threshold, with severity CRITICAL above 5 and HIGH otherwise. -/
noncomputable def anomTest (y : List ℝ) (p : ℕ × ℝ) : Option AnomRec :=
  let z := |(p.2 - anomMean y) / anomDev y|
  if z > z_th then some ⟨p.1, p.2, z, if z > 5 then "CRITICAL" else "HIGH"⟩
  else none

/-- The `anomalies` list accumulated by `Engine.anom` over
`enumerate(y)`. -/
noncomputable def anomList (y : List ℝ) : List AnomRec :=
  y.enum.filterMap (anomTest y)

/-- Engine.anom: z-score anomaly detection.  The source wraps the body
in `try/except`, but in exact arithmetic no operation in it can raise
once `len(y) >= 2`. -/
noncomputable def anom (y : List ℝ) : ℕ × String × List AnomRec :=
  if y.length < 2 then (0, "LOW", [])
  else
    let anomalies := anomList y
    let crit := (anomalies.filter (fun a => a.sev = "CRITICAL")).length
    let danger := if crit > 0 then "CRITICAL"
      else if anomalies.isEmpty then "LOW" else "HIGH"
    (anomalies.length, danger, anomalies)

/-- Python `min(list)` of a nonempty list (0 on the empty list, where
the source would raise; `proc` only applies it to nonempty lists). -/
def listMin : List ℝ → ℝ
  | [] => 0
  | x :: xs => xs.foldl min x

/-- Python `max(list)` of a nonempty list (0 on the empty list). -/
def listMax : List ℝ → ℝ
  | [] => 0
  | x :: xs => xs.foldl max x

/-- The per-batch summary dict assembled by `Engine.proc`. -/
structure Summary where
  bid : ℕ
  total : ℕ
  valid : ℕ
  invalid_parse : ℕ
  invalid_clean : ℕ
  total_invalid : ℕ
  mean : ℝ
  std : ℝ
  min : ℝ
  max : ℝ
  median : ℝ
  range : ℝ
  cv : ℝ
  type : String
  r2 : ℝ
  params : Params
  anom : ℕ
  danger : String
  anom_details : List AnomRec

/-- Engine.proc: clean the batch, and unless the cleaned sequence is
empty (which `clean` in fact never produces, because of its `[0]`
sentinel) assemble the batch summary.  Python `sorted` is modelled by
insertion sort; `sorted(clean)[len(clean)//2]` is total here via `getD`,
whose default is never used since the cleaned list is nonempty. -/
noncomputable def proc (batch : List ℝ) (bid : ℕ) (invalid_from_parse : ℕ) :
    Option Summary :=
  let cp := clean batch
  if cp.1 = [] then none
  else
    let c := cp.1
    let m := c.sum / c.length
    let s := Real.sqrt ((c.map (fun x => (x - m) ^ 2)).sum / c.length)
    let pat := analyze c
    let an := anom c
    some {
      bid := bid
      total := batch.length
      valid := c.length
      invalid_parse := invalid_from_parse
      invalid_clean := cp.2
      total_invalid := invalid_from_parse + cp.2
      mean := m
      std := s
      min := listMin c
      max := listMax c
      median := (c.insertionSort (· ≤ ·)).getD (c.length / 2) 0
      range := listMax c - listMin c
      cv := if m ≠ 0 then s / m * 100 else 0
      type := pat.tag
      r2 := pat.r2
      params := pat.params
      anom := an.1
      danger := an.2.1
      anom_details := an.2.2 }

/-! Theorems. -/

/-- Evaluation of the stability score at no invalid data, no anomalies
and LOW danger. -/
lemma calc_stability_all_good : calc_stability (0 : ℚ) 100 0 "LOW" = 100 := by
  norm_num [calc_stability, pyRound2, roundHalfEven, Int.fract]

/-- Evaluation of the stability score at fully invalid data, no
anomalies and CRITICAL danger: the anomaly term still contributes its
full 30 points. -/
lemma calc_stability_all_bad : calc_stability (100 : ℚ) 100 0 "CRITICAL" = 30 := by
  norm_num [calc_stability, pyRound2, roundHalfEven, Int.fract,
    show ("CRITICAL" : String) ≠ "LOW" from by decide,
    show ("CRITICAL" : String) ≠ "HIGH" from by decide]

/-- A sum of squared differences over zipped lists is nonnegative. -/
lemma sum_sq_zip_nonneg (l1 l2 : List ℝ) :
    0 ≤ (List.zipWith (fun a b => (a - b) ^ 2) l1 l2).sum := by
  induction l1 generalizing l2 with
  | nil => simp
  | cons x xs ih =>
    cases l2 with
    | nil => simp
    | cons y ys =>
      simp only [List.zipWith_cons_cons, List.sum_cons]
      exact add_nonneg (sq_nonneg _) (ih ys)

/-- The score of every successful `fit` lies in the unit interval: it
is the maximum of 0 and a quantity that is either `1 - SSres/SStot`
with nonnegative `SSres` and positive `SStot`, or the constant 0.5. -/
lemma fit_r2_bounds {x y : List ℝ} {a b r2 : ℝ}
    (h : fit x y = some (a, b, r2)) : 0 ≤ r2 ∧ r2 ≤ 1 := by
  simp only [fit] at h
  split at h
  · exact absurd h (by simp)
  · simp only [Option.some.injEq, Prod.mk.injEq] at h
    obtain ⟨-, -, hr⟩ := h
    subst hr
    refine ⟨le_max_left _ _, ?_⟩
    rw [max_le_iff]
    refine ⟨by norm_num, ?_⟩
    split
    · next hss =>
      exact sub_le_self 1 (div_nonneg (sum_sq_zip_nonneg _ _)
        (le_trans (by norm_num) hss.le))
    · norm_num

/-- Zipping against a replicated right argument is a map. -/
lemma zipWith_right_replicate (f : ℝ → ℝ → ℝ) (l : List ℝ) :
    ∀ (n : ℕ) (c : ℝ), l.length ≤ n →
      List.zipWith f l (List.replicate n c) = l.map (fun v => f v c) := by
  induction l with
  | nil => intro n c h; simp
  | cons x xs ih =>
    intro n c h
    cases n with
    | zero => simp at h
    | succ m =>
      simp only [List.replicate_succ, List.zipWith_cons_cons, List.map_cons]
      rw [ih m c (by simpa using h)]

/-- Zipping against a replicated left argument is a map. -/
lemma zipWith_left_replicate (f : ℝ → ℝ → ℝ) (l : List ℝ) :
    ∀ (n : ℕ) (c : ℝ), l.length ≤ n →
      List.zipWith f (List.replicate n c) l = l.map (fun v => f c v) := by
  induction l with
  | nil => intro n c h; simp
  | cons x xs ih =>
    intro n c h
    cases n with
    | zero => simp at h
    | succ m =>
      simp only [List.replicate_succ, List.zipWith_cons_cons, List.map_cons]
      rw [ih m c (by simpa using h)]

/-- On a nonempty constant sequence, with the index abscissa that
`analyze` uses, `fit` returns slope 0, intercept the constant, and the
degenerate-variance score one half. -/
lemma fit_const (n : ℕ) (c : ℝ) (hn : 1 ≤ n) :
    fit (xIdx (List.replicate n c)) (List.replicate n c) = some (0, c, 1/2) := by
  have hn' : (n : ℝ) ≠ 0 := Nat.cast_ne_zero.2 (by omega)
  have hXlen : (xIdx (List.replicate n c)).length = n := by
    simp only [xIdx, List.length_map, List.length_range, List.length_replicate]
  have hguard : ¬((xIdx (List.replicate n c)).length = 0 ∨
      (List.replicate n c).length < (xIdx (List.replicate n c)).length) := by
    simp only [hXlen, List.length_replicate]; omega
  have hmy : (List.replicate n c).sum / ((List.replicate n c).length : ℝ) = c := by
    simp only [List.sum_replicate, List.length_replicate, nsmul_eq_mul]
    field_simp
  simp only [fit]
  rw [if_neg hguard, hmy]
  set X := xIdx (List.replicate n c) with hX
  have hnum : (List.zipWith
      (fun xi yi => (xi - X.sum / (X.length : ℝ)) * (yi - c)) X
      (List.replicate n c)).sum = 0 := by
    rw [zipWith_right_replicate _ _ n c hXlen.le]
    exact List.sum_eq_zero (fun v hv => by
      obtain ⟨w, -, rfl⟩ := List.mem_map.1 hv; ring)
  rw [hnum]
  simp only [zero_div, ite_self, zero_mul, sub_zero, zero_add]
  have hss_res : (List.zipWith (fun yi pi => (yi - pi) ^ 2)
      (List.replicate n c) (X.map (fun xi => c))).sum = 0 := by
    rw [zipWith_left_replicate _ _ n c (by simp [hXlen])]
    exact List.sum_eq_zero (fun v hv => by
      obtain ⟨w, hw, rfl⟩ := List.mem_map.1 hv
      obtain ⟨u, -, rfl⟩ := List.mem_map.1 hw; ring)
  have hss_tot : ((List.replicate n c).map (fun yi => (yi - c) ^ 2)).sum = 0 := by
    rw [List.map_replicate]
    simp [List.sum_replicate]
  rw [hss_res, hss_tot]
  rw [if_neg (by norm_num)]
  norm_num

/-- C6: `fit` on every non-empty constant sequence (against the index
abscissa `0..n-1`) returns slope exactly 0 and score exactly one half,
and the score of every successful `fit` is never negative. -/
theorem fit_constant_half_and_nonneg :
    (∀ (n : ℕ) (c : ℝ), 1 ≤ n →
      fit (xIdx (List.replicate n c)) (List.replicate n c) = some (0, c, 1/2)) ∧
    (∀ (x y : List ℝ) (a b r2 : ℝ), fit x y = some (a, b, r2) → 0 ≤ r2) :=
  ⟨fun n c hn => fit_const n c hn,
   fun _ _ _ _ _ h => (fit_r2_bounds h).1⟩

/-- Witness for C6 at the length-1 constant sequence with value 5. -/
theorem fit_constant_half_and_nonneg_witness :
    (1 ≤ 1) ∧
    fit (xIdx (List.replicate 1 (5 : ℝ))) (List.replicate 1 (5 : ℝ)) =
      some (0, 5, 1/2) ∧
    (0 : ℝ) ≤ 1/2 := by
  have h := fit_constant_half_and_nonneg.1 1 5 (by norm_num)
  exact ⟨by norm_num, h, fit_constant_half_and_nonneg.2 _ _ 0 5 (1/2) h⟩

/-- C9: every entry of the candidate dict built by `analyze` either is
an except-branch entry carrying score -1, or carries a goodness-of-fit
score in the interval 0 to 1: each successfully computed score is a
maximum with 0 of either `1 - SSres/SStot` with nonnegative `SSres`, or
one of the degenerate constants 0.5 and 0.3. -/
theorem candidate_scores_in_unit_interval :
    ∀ (y : List ℝ), ∀ c ∈ candidates y, c.r2 = -1 ∨ (0 ≤ c.r2 ∧ c.r2 ≤ 1) := by
  intro y c hc
  simp only [candidates, restCands, List.mem_cons, List.mem_append] at hc
  rcases hc with rfl | hc1 | hc2
  · rcases hfit : fit (xIdx y) y with - | ⟨a, b, r⟩
    · simp [linCand, hfit]
    · simp only [linCand, hfit]
      exact Or.inr (fit_r2_bounds hfit)
  · by_cases h2 : 2 < y.length
    · simp only [if_pos h2, List.mem_singleton] at hc1
      subst hc1
      right
      simp only [quadCand]
      refine ⟨le_max_left _ _, ?_⟩
      rw [max_le_iff]
      refine ⟨by norm_num, ?_⟩
      split
      · next hss =>
        exact sub_le_self 1 (div_nonneg (sum_sq_zip_nonneg _ _)
          (le_trans (by norm_num) hss.le))
      · norm_num
    · simp only [if_neg h2, List.not_mem_nil] at hc1
  · by_cases hp : ∀ v ∈ y, 0 < v
    · simp only [if_pos hp, List.mem_singleton] at hc2
      subst hc2
      rcases hfit : fit (xIdx y) (y.map Real.log) with - | ⟨a, b, r⟩
      · simp [expCand, hfit]
      · simp only [expCand, hfit]
        exact Or.inr (fit_r2_bounds hfit)
    · simp only [if_neg hp, List.not_mem_nil] at hc2

/-- Witness for C9: the LINEAR candidate on the input `[0, 1]`. -/
theorem candidate_scores_in_unit_interval_witness :
    (linCand [(0 : ℝ), 1] ∈ candidates [(0 : ℝ), 1]) ∧
    ((linCand [(0 : ℝ), 1]).r2 = -1 ∨
      (0 ≤ (linCand [(0 : ℝ), 1]).r2 ∧ (linCand [(0 : ℝ), 1]).r2 ≤ 1)) := by
  have hm : linCand [(0 : ℝ), 1] ∈ candidates [(0 : ℝ), 1] :=
    List.mem_cons_self _ _
  exact ⟨hm, candidate_scores_in_unit_interval [0, 1] _ hm⟩

/-- The scan of Python max never decreases the running best. -/
lemma pickFirst_le (cs : List Cand) : ∀ (c : Cand),
    c.r2 ≤ (pickFirst c cs).r2 ∧ ∀ d ∈ cs, d.r2 ≤ (pickFirst c cs).r2 := by
  induction cs with
  | nil => intro c; exact ⟨le_refl _, by simp⟩
  | cons d ds ih =>
    intro c
    simp only [pickFirst]
    obtain ⟨h1, h2⟩ := ih (if c.r2 < d.r2 then d else c)
    refine ⟨le_trans ?_ h1, ?_⟩
    · split
      · next h => exact le_of_lt h
      · exact le_refl _
    · intro e he
      rcases List.mem_cons.1 he with rfl | he2
      · refine le_trans ?_ h1
        split
        · exact le_refl _
        · next h => exact le_of_not_lt h
      · exact h2 e he2

/-- The scan of Python max returns its start or a list element. -/
lemma pickFirst_mem (cs : List Cand) : ∀ c, pickFirst c cs = c ∨ pickFirst c cs ∈ cs := by
  induction cs with
  | nil => intro c; exact Or.inl rfl
  | cons d ds ih =>
    intro c
    simp only [pickFirst]
    rcases ih (if c.r2 < d.r2 then d else c) with h | h
    · rw [h]
      split
      · exact Or.inr (List.mem_cons_self _ _)
      · exact Or.inl rfl
    · exact Or.inr (List.mem_cons_of_mem _ h)

/-- The scan of Python max returns the first maximal element: either
the start value, or a list element that strictly beats the start value
and every earlier element. -/
lemma pickFirst_first (cs : List Cand) : ∀ c,
    pickFirst c cs = c ∨
    ∃ k, ∃ hk : k < cs.length, pickFirst c cs = cs.get ⟨k, hk⟩ ∧
      c.r2 < (pickFirst c cs).r2 ∧
      ∀ j (hj : j < k), (cs.get ⟨j, hj.trans hk⟩).r2 < (pickFirst c cs).r2 := by
  induction cs with
  | nil => intro c; exact Or.inl rfl
  | cons d ds ih =>
    intro c
    simp only [pickFirst]
    by_cases hcd : c.r2 < d.r2
    · rw [if_pos hcd]
      rcases ih d with h | ⟨k, hk, heq, hlt, hstrict⟩
      · right
        refine ⟨0, by simp, ?_, ?_, ?_⟩
        · rw [h]; rfl
        · rw [h]; exact hcd
        · intro j hj; exact absurd hj (Nat.not_lt_zero j)
      · right
        refine ⟨k + 1, by simpa using Nat.succ_lt_succ hk, ?_, ?_, ?_⟩
        · simpa using heq
        · exact lt_trans hcd hlt
        · intro j hj
          cases j with
          | zero => simpa using hlt
          | succ i => simpa using hstrict i (by omega)
    · rw [if_neg hcd]
      rcases ih c with h | ⟨k, hk, heq, hlt, hstrict⟩
      · exact Or.inl h
      · right
        refine ⟨k + 1, by simpa using Nat.succ_lt_succ hk, ?_, ?_, ?_⟩
        · simpa using heq
        · exact hlt
        · intro j hj
          cases j with
          | zero => simpa using lt_of_le_of_lt (le_of_not_lt hcd) hlt
          | succ i => simpa using hstrict i (by omega)

/-- The LINEAR entry always carries the tag LINEAR. -/
lemma linCand_tag (y : List ℝ) : (linCand y).tag = "LINEAR" := by
  unfold linCand; split <;> rfl

/-- The EXP entry always carries the tag EXP. -/
lemma expCand_tag (y : List ℝ) : (expCand y).tag = "EXP" := by
  unfold expCand; split <;> rfl

/-- The QUAD entry always carries the tag QUAD. -/
lemma quadCand_tag (y : List ℝ) : (quadCand y).tag = "QUAD" := rfl

/-- C5: for every input, `analyze` returns a member of the candidate
dict whose score is maximal, and in fact the earliest-inserted maximal
entry (every earlier entry scores strictly less); the dict contains a
QUAD entry exactly when the length exceeds 2 and an EXP entry exactly
when every value is strictly positive (LINEAR is always present as the
head), and a LINEAR computation that raises is recorded with score
-1. -/
theorem analyze_selects_first_max :
    ∀ (y : List ℝ),
      (analyze y ∈ candidates y) ∧
      (∀ c ∈ candidates y, c.r2 ≤ (analyze y).r2) ∧
      (∃ k, ∃ hk : k < (candidates y).length,
        analyze y = (candidates y).get ⟨k, hk⟩ ∧
        ∀ j (hj : j < k), ((candidates y).get ⟨j, hj.trans hk⟩).r2 < (analyze y).r2) ∧
      ((∃ c ∈ candidates y, c.tag = "QUAD") ↔ 2 < y.length) ∧
      ((∃ c ∈ candidates y, c.tag = "EXP") ↔ ∀ v ∈ y, 0 < v) ∧
      (fit (xIdx y) y = none → (linCand y).r2 = -1) := by
  intro y
  have hana : analyze y = pickFirst (linCand y) (restCands y) := rfl
  refine ⟨?_, ?_, ?_, ?_, ?_, ?_⟩
  · rcases pickFirst_mem (restCands y) (linCand y) with h | h
    · simp only [candidates, hana, h]
      exact List.mem_cons_self _ _
    · simp only [candidates]
      exact List.mem_cons_of_mem _ (by rw [hana]; exact h)
  · intro c hc
    obtain ⟨h1, h2⟩ := pickFirst_le (restCands y) (linCand y)
    rcases List.mem_cons.1 (by simpa only [candidates] using hc) with rfl | hc2
    · rw [hana]; exact h1
    · rw [hana]; exact h2 c hc2
  · rcases pickFirst_first (restCands y) (linCand y) with h | ⟨k, hk, heq, hlt, hstrict⟩
    · refine ⟨0, by simp [candidates], ?_, ?_⟩
      · rw [hana, h]; rfl
      · intro j hj; exact absurd hj (Nat.not_lt_zero j)
    · have hk1 : k + 1 < (candidates y).length := by
        simp only [candidates, List.length_cons]; omega
      refine ⟨k + 1, hk1, ?_, ?_⟩
      · simp only [candidates, List.get_cons_succ]
        rw [hana]; exact heq
      · intro j hj
        cases j with
        | zero =>
          simp only [candidates, List.get_cons_zero]
          rw [hana]; exact hlt
        | succ i =>
          have hi : i < k := by omega
          simp only [candidates, List.get_cons_succ]
          rw [hana]; exact hstrict i hi
  · constructor
    · rintro ⟨c, hc, htag⟩
      by_contra h2
      rcases List.mem_cons.1 (by simpa only [candidates] using hc) with rfl | hc2
      · rw [linCand_tag] at htag; exact absurd htag (by decide)
      · rw [restCands, if_neg h2, List.nil_append] at hc2
        by_cases hp : ∀ v ∈ y, 0 < v
        · rw [if_pos hp] at hc2
          rcases List.mem_singleton.1 hc2 with rfl
          rw [expCand_tag] at htag; exact absurd htag (by decide)
        · rw [if_neg hp] at hc2; exact absurd hc2 (List.not_mem_nil c)
    · intro h2
      refine ⟨quadCand y, ?_, quadCand_tag y⟩
      simp only [candidates]
      refine List.mem_cons_of_mem _ ?_
      rw [restCands, if_pos h2]
      exact List.mem_append_left _ (List.mem_singleton.2 rfl)
  · constructor
    · rintro ⟨c, hc, htag⟩
      by_contra hp
      rcases List.mem_cons.1 (by simpa only [candidates] using hc) with rfl | hc2
      · rw [linCand_tag] at htag; exact absurd htag (by decide)
      · rw [restCands, if_neg hp, List.append_nil] at hc2
        by_cases h2 : 2 < y.length
        · rw [if_pos h2] at hc2
          rcases List.mem_singleton.1 hc2 with rfl
          rw [quadCand_tag] at htag; exact absurd htag (by decide)
        · rw [if_neg h2] at hc2; exact absurd hc2 (List.not_mem_nil c)
    · intro hp
      refine ⟨expCand y, ?_, expCand_tag y⟩
      simp only [candidates]
      refine List.mem_cons_of_mem _ ?_
      rw [restCands, if_pos hp]
      exact List.mem_append_right _ (List.mem_singleton.2 rfl)
  · intro hnone
    simp [linCand, hnone]

/-- Witness for C5: the LINEAR candidate on the input `[1, 2, 3]`. -/
theorem analyze_selects_first_max_witness :
    (linCand [(1 : ℝ), 2, 3] ∈ candidates [(1 : ℝ), 2, 3]) ∧
    (linCand [(1 : ℝ), 2, 3]).r2 ≤ (analyze [(1 : ℝ), 2, 3]).r2 := by
  have hm : linCand [(1 : ℝ), 2, 3] ∈ candidates [(1 : ℝ), 2, 3] :=
    List.mem_cons_self _ _
  exact ⟨hm, (analyze_selects_first_max [1, 2, 3]).2.1 _ hm⟩

/-- The cleaner never returns an empty value list: the empty fold
result is replaced by the sentinel `[0]`. -/
lemma clean_fst_ne_nil (d : List ℝ) : (clean d).1 ≠ [] := by
  simp only [clean]
  split
  · simp
  · next h => exact h

/-- Cleaning a batch whose only value is out of range yields the
sentinel `[0]` and one removal. -/
lemma clean_big : clean [(10 : ℝ) ^ 16] = ([0], 1) := by
  simp only [clean, cleanStep, List.foldl]
  norm_num

/-- C1 (code bug evidence): `proc` never returns `none` — its
empty-cleaned-batch guard is dead code because `clean` always returns
the `[0]` sentinel in place of an empty sequence — and on the batch
`[1e16]`, whose only value the cleaner removes, `proc` produces a full
summary that counts the sentinel 0 as one valid data point. -/
theorem proc_never_skips_batch :
    (∀ (batch : List ℝ) (bid ipc : ℕ), proc batch bid ipc ≠ none) ∧
    clean [(10 : ℝ) ^ 16] = ([0], 1) ∧
    (proc [(10 : ℝ) ^ 16] 1 0).map Summary.valid = some 1 ∧
    (proc [(10 : ℝ) ^ 16] 1 0).map Summary.total_invalid = some 1 := by
  refine ⟨?_, clean_big, ?_, ?_⟩
  · intro batch bid ipc
    simp only [proc]
    rw [if_neg (clean_fst_ne_nil batch)]
    simp
  · simp only [proc, clean_big]
    norm_num
  · simp only [proc, clean_big]
    norm_num

/-- The median reported by `proc` is the entry at 0-based index
`n / 2` of any sorted rearrangement of the cleaned values. -/
lemma median_general (batch : List ℝ) (bid ipc : ℕ) (s : List ℝ)
    (hperm : s.Perm (clean batch).1) (hsort : s.Sorted (· ≤ ·)) :
    (proc batch bid ipc).map Summary.median = some (s.getD (s.length / 2) 0) := by
  have hs : s = (clean batch).1.insertionSort (· ≤ ·) := by
    apply List.eq_of_perm_of_sorted ?_ hsort (List.sorted_insertionSort _ _)
    exact hperm.trans (List.perm_insertionSort _ _).symm
  have hlen : ((clean batch).1.insertionSort (· ≤ ·)).length = (clean batch).1.length :=
    (List.perm_insertionSort _ _).length_eq
  simp only [proc]
  rw [if_neg (clean_fst_ne_nil batch)]
  simp only [Option.map_some']
  rw [hs, hlen]

/-- Cleaning the in-range batch `[1, 3]` removes nothing. -/
lemma clean_one_three : clean [(1 : ℝ), 3] = ([1, 3], 0) := by
  simp only [clean, cleanStep, List.foldl]
  norm_num [List.cons_ne_nil]

/-- On the even-length batch `[1, 3]` the reported median is the upper
middle element 3, not the average 2 of the two middle elements. -/
lemma median_one_three :
    (proc [(1 : ℝ), 3] 1 0).map Summary.median = some 3 := by
  have h := median_general [(1 : ℝ), 3] 1 0 [1, 3]
    (by rw [clean_one_three]) (by norm_num [List.sorted_cons])
  simpa using h

/-- C10: the median reported in every batch summary is the element at
0-based index `n / 2` of the sorted cleaned values — for even `n` the
upper of the two middle elements (witnessed on `[1, 3]`, where it is 3
rather than the two-middle average 2), and for odd `n` the true middle,
since then `n / 2 = (n - 1) / 2`. -/
theorem median_is_upper_middle :
    (∀ (batch : List ℝ) (bid ipc : ℕ) (s : List ℝ),
      s.Perm (clean batch).1 → s.Sorted (· ≤ ·) →
      (proc batch bid ipc).map Summary.median = some (s.getD (s.length / 2) 0)) ∧
    (proc [(1 : ℝ), 3] 1 0).map Summary.median = some 3 :=
  ⟨median_general, median_one_three⟩

/-- Witness for C10 on the batch `[1, 3]` with its sorted rearrangement
`[1, 3]`. -/
theorem median_is_upper_middle_witness :
    ([(1 : ℝ), 3].Perm (clean [(1 : ℝ), 3]).1) ∧
    List.Sorted (· ≤ ·) [(1 : ℝ), 3] ∧
    (proc [(1 : ℝ), 3] 1 0).map Summary.median =
      some ([(1 : ℝ), 3].getD ([(1 : ℝ), 3].length / 2) 0) := by
  have hp : [(1 : ℝ), 3].Perm (clean [(1 : ℝ), 3]).1 := by rw [clean_one_three]
  have hs : List.Sorted (· ≤ ·) [(1 : ℝ), 3] := by norm_num [List.sorted_cons]
  exact ⟨hp, hs, median_is_upper_middle.1 [1, 3] 1 0 [1, 3] hp hs⟩

/-- C2 (counterexample): the claim asserts
`calc_stability(100, 100, 0, CRITICAL) = 0.0`; in fact the code returns
30.0 there (the `0.3 * (100 - anomaly_ratio)` term does not vanish), so
the claimed value is false. -/
theorem calc_stability_critical_not_zero :
    calc_stability (100 : ℚ) 100 0 "CRITICAL" ≠ 0 := by
  rw [calc_stability_all_bad]; norm_num

/-- C2 (amended): `calc_stability(0, 100, 0, LOW)` returns exactly 100,
and `calc_stability(100, 100, 0, CRITICAL)` returns exactly 30 (not 0:
with no anomalies the anomaly term contributes 0.3 times 100). -/
theorem calc_stability_boundary_values :
    calc_stability (0 : ℚ) 100 0 "LOW" = 100 ∧
    calc_stability (100 : ℚ) 100 0 "CRITICAL" = 30 :=
  ⟨calc_stability_all_good, calc_stability_all_bad⟩

/-- C4: for every input, `calc_stability` returns exactly the stability
formula of the specification: 0.5 times data quality plus 0.3 times
(100 minus the anomaly ratio) plus 0.2 times the danger score (LOW 100,
HIGH 50, CRITICAL 0, otherwise 75), rounded to 2 decimals, with both
ratios 0 when the total is not positive. -/
theorem calc_stability_matches_spec (total_invalid total_points anomalies : ℚ)
    (danger : String) :
    calc_stability total_invalid total_points anomalies danger =
      stabilitySpec total_invalid total_points anomalies danger := by
  simp only [calc_stability, stabilitySpec]
  exact congrArg pyRound2 (by ring)

/-- The square root of 4. -/
lemma sqrt4_eq : Real.sqrt 4 = 2 := by
  rw [show (4 : ℝ) = 2 ^ 2 by norm_num, Real.sqrt_sq (by norm_num)]

/-- A rational lower bound on the square root of 5445. -/
lemma sqrt5445_gt : (55 : ℝ) < Real.sqrt 5445 :=
  (Real.lt_sqrt (by norm_num)).2 (by norm_num)

/-- The mean of the sequence `[1,1,1,1,1,100]`. -/
lemma anomMean_tight : anomMean [1, 1, 1, 1, 1, 100] = 35 / 2 := by
  norm_num [anomMean]

/-- The population standard deviation of `[1,1,1,1,1,100]`: the
variance is 5445/4, well above the degeneracy floor. -/
lemma anomDev_tight : anomDev [1, 1, 1, 1, 1, 100] = Real.sqrt 5445 / 2 := by
  rw [anomDev]
  simp only [anomMean_tight, List.map_cons, List.map_nil, List.sum_cons,
    List.sum_nil, List.length_cons, List.length_nil]
  norm_num
  rw [sqrt4_eq]
  rw [if_pos (by linarith [sqrt5445_gt] : (1 / 10000000000 : ℝ) < Real.sqrt 5445 / 2)]

/-- No sample of `[1,1,1,1,1,100]` is flagged: the outlier has
z-score `(165/2)/(sqrt 5445 / 2)`, the square root of 5, which is
below the threshold 3. -/
lemma anomList_tight : anomList [1, 1, 1, 1, 1, 100] = [] := by
  have hSpos : (0 : ℝ) < Real.sqrt 5445 / 2 := by linarith [sqrt5445_gt]
  have hz1 : ∀ i : ℕ, anomTest [1, 1, 1, 1, 1, 100] (i, 1) = none := by
    intro i
    rw [anomTest]
    simp only [anomMean_tight, anomDev_tight, z_th]
    rw [if_neg]
    rw [not_lt, abs_div, abs_of_pos hSpos]
    rw [show |(1 : ℝ) - 35 / 2| = 33 / 2 by
      rw [abs_of_nonpos (by norm_num)]; norm_num]
    rw [div_le_iff₀ hSpos]
    nlinarith [sqrt5445_gt]
  have hz100 : ∀ i : ℕ, anomTest [1, 1, 1, 1, 1, 100] (i, 100) = none := by
    intro i
    rw [anomTest]
    simp only [anomMean_tight, anomDev_tight, z_th]
    rw [if_neg]
    rw [not_lt, abs_div, abs_of_pos hSpos]
    rw [show |(100 : ℝ) - 35 / 2| = 165 / 2 by
      rw [abs_of_nonneg (by norm_num)]; norm_num]
    rw [div_le_iff₀ hSpos]
    nlinarith [sqrt5445_gt]
  rw [anomList, List.filterMap_eq_nil_iff]
  intro p hp
  simp only [List.enum, List.enumFrom, List.mem_cons, List.not_mem_nil,
    or_false] at hp
  rcases hp with rfl | rfl | rfl | rfl | rfl | rfl
  · exact hz1 0
  · exact hz1 1
  · exact hz1 2
  · exact hz1 3
  · exact hz1 4
  · exact hz100 5

/-- `anom` on `[1,1,1,1,1,100]` reports zero anomalies and LOW
danger. -/
lemma anom_tight : anom [1, 1, 1, 1, 1, 100] = (0, "LOW", []) := by
  rw [anom]
  rw [if_neg (by norm_num)]
  simp [anomList_tight]



/-- An anomaly record with index `i` exists exactly when the absolute
z-score of sample `i` (with the floored deviation) exceeds the
threshold. -/
lemma mem_anomList_iff (y : List ℝ) (i : ℕ) (hi : i < y.length) :
    (∃ a ∈ anomList y, a.idx = i) ↔
      z_th < |(y.get ⟨i, hi⟩ - anomMean y) / anomDev y| := by
  constructor
  · rintro ⟨a, ha, hidx⟩
    rw [anomList] at ha
    obtain ⟨p, hp, htest⟩ := List.mem_filterMap.1 ha
    obtain ⟨i1, v⟩ := p
    rw [anomTest] at htest
    by_cases hz : z_th < |(v - anomMean y) / anomDev y|
    · rw [if_pos hz] at htest
      obtain rfl := Option.some.inj htest
      simp only at hidx
      subst hidx
      have hv : y[i1]? = some v := List.mk_mem_enum_iff_getElem?.1 hp
      rw [List.getElem?_eq_getElem hi] at hv
      obtain rfl := Option.some.inj hv
      simpa using hz
    · rw [if_neg hz] at htest
      exact absurd htest (by simp)
  · intro hz
    refine ⟨⟨i, y.get ⟨i, hi⟩, |(y.get ⟨i, hi⟩ - anomMean y) / anomDev y|,
      if 5 < |(y.get ⟨i, hi⟩ - anomMean y) / anomDev y| then "CRITICAL"
      else "HIGH"⟩, ?_, rfl⟩
    rw [anomList]
    apply List.mem_filterMap.2
    refine ⟨(i, y.get ⟨i, hi⟩), ?_, ?_⟩
    · exact List.mk_mem_enum_iff_getElem?.2 (by rw [List.getElem?_eq_getElem hi]; rfl)
    · rw [anomTest]
      rw [if_pos hz]

/-- C3 (amended): `anom` on `[1,1,1,1,1,100]` flags no anomaly at all
(the outlier's z-score is the square root of 5, about 2.24, so it does
not exceed the threshold 3.0; the claimed single anomaly at index 5
does not exist), while the general rule does hold: for every sequence
of length at least 2, an anomaly is recorded at index `i` exactly when
the population z-score (with the deviation floored to 1 when not above
1e-10) exceeds the threshold 3.0. -/
theorem anom_threshold_rule :
    anom [1, 1, 1, 1, 1, 100] = (0, "LOW", []) ∧
    ∀ (y : List ℝ) (i : ℕ) (hi : i < y.length), 2 ≤ y.length →
      ((∃ a ∈ (anom y).2.2, a.idx = i) ↔
        z_th < |(y.get ⟨i, hi⟩ - anomMean y) / anomDev y|) := by
  refine ⟨anom_tight, ?_⟩
  intro y i hi h2
  have h : (anom y).2.2 = anomList y := by
    rw [anom, if_neg (by omega)]
  rw [h]
  exact mem_anomList_iff y i hi

/-- C3 (counterexample): `anom [1,1,1,1,1,100]` does not flag exactly
one anomaly — it flags none. -/
theorem anom_outlier_not_flagged :
    ¬ ((anom [1, 1, 1, 1, 1, 100]).1 = 1) := by
  rw [anom_tight]
  norm_num

/-- Witness for C3 on the sequence `[1, 2]` at index 0. -/
theorem anom_threshold_rule_witness :
    (0 < ([(1 : ℝ), 2]).length) ∧ (2 ≤ ([(1 : ℝ), 2]).length) ∧
    ((∃ a ∈ (anom [(1 : ℝ), 2]).2.2, a.idx = 0) ↔
      z_th < |([(1 : ℝ), 2].get ⟨0, by norm_num⟩ - anomMean [(1 : ℝ), 2]) /
        anomDev [(1 : ℝ), 2]|) := by
  exact ⟨by norm_num, by norm_num,
    anom_threshold_rule.2 [1, 2] 0 (by norm_num) (by norm_num)⟩

/-- The index abscissa for a six-element input. -/
lemma hx6 : xIdx [(1 : ℝ), 2, 4, 8, 16, 32] = [0, 1, 2, 3, 4, 5] := by
  norm_num [xIdx, List.range_succ]

/-- The LINEAR candidate on `[1,2,4,8,16,32]`: score 201/245, about
0.82. -/
lemma hlin6 : linCand [(1 : ℝ), 2, 4, 8, 16, 32] =
    ⟨"LINEAR", 201/245, .linear (201/35) (-27/7)⟩ := by
  rw [linCand, hx6]
  norm_num [fit, abs_of_nonneg]



/-- The QUAD candidate on `[1,2,4,8,16,32]`: score 433/804, about
0.54. -/
lemma hquad6 : quadCand [(1 : ℝ), 2, 4, 8, 16, 32] =
    ⟨"QUAD", 433/804, .quad (15/8) (-7/8) 1⟩ := by
  rw [quadCand, hx6]
  norm_num [List.range_succ, List.cons_ne_nil]



/-- The natural logarithms of `[1,2,4,8,16,32]` are the multiples of
log 2. -/
lemma hlog6 : [(1 : ℝ), 2, 4, 8, 16, 32].map Real.log =
    [0, Real.log 2, 2 * Real.log 2, 3 * Real.log 2, 4 * Real.log 2,
      5 * Real.log 2] := by
  have h : ∀ n : ℕ, Real.log ((2 : ℝ) ^ n) = n * Real.log 2 := by
    intro n; rw [Real.log_pow]
  simp only [List.map_cons, List.map_nil, Real.log_one]
  rw [show (4 : ℝ) = 2 ^ (2 : ℕ) by norm_num, show (8 : ℝ) = 2 ^ (3 : ℕ) by norm_num,
    show (16 : ℝ) = 2 ^ (4 : ℕ) by norm_num, show (32 : ℝ) = 2 ^ (5 : ℕ) by norm_num,
    h 2, h 3, h 4, h 5]
  norm_num

/-- A rational lower bound on the square of log 2. -/
lemma log_two_sq_gt : (0.48 : ℝ) < Real.log 2 * Real.log 2 := by
  nlinarith [Real.log_two_gt_d9]

set_option maxHeartbeats 2000000 in
/-- Fitting a line to the log-transformed powers of two is exact:
slope log 2, intercept 0, score exactly 1. -/
lemma hfitlog : fit [(0 : ℝ), 1, 2, 3, 4, 5]
    [0, Real.log 2, 2 * Real.log 2, 3 * Real.log 2, 4 * Real.log 2,
      5 * Real.log 2] = some (Real.log 2, 0, 1) := by
  simp only [fit, List.length_cons, List.length_nil, List.sum_cons, List.sum_nil,
    List.map_cons, List.map_nil, List.zipWith_cons_cons, List.zipWith_nil_right]
  rw [if_neg (by norm_num)]
  push_cast
  norm_num [abs_of_nonneg]
  split_ifs with h2
  · refine ⟨?_, ?_, ?_⟩
    · field_simp
      ring
    · field_simp
      ring
    · ring_nf
      norm_num
  · exfalso
    rw [not_lt] at h2
    nlinarith [log_two_sq_gt, h2]



/-- The EXP candidate on `[1,2,4,8,16,32]`: amplitude exp 0 = 1, rate
log 2, score exactly 1. -/
lemma hexp6 : expCand [(1 : ℝ), 2, 4, 8, 16, 32] =
    ⟨"EXP", 1, .exponential 1 (Real.log 2)⟩ := by
  unfold expCand
  rw [hx6, hlog6, hfitlog]
  simp [Real.exp_zero]

/-- On `[1,2,4,8,16,32]` all three candidates are computed: the length
exceeds 2 and every value is positive. -/
lemma hrest6 : restCands [(1 : ℝ), 2, 4, 8, 16, 32] =
    [quadCand [(1 : ℝ), 2, 4, 8, 16, 32], expCand [(1 : ℝ), 2, 4, 8, 16, 32]] := by
  rw [restCands]
  rw [if_pos (by norm_num : 2 < ([(1 : ℝ), 2, 4, 8, 16, 32]).length)]
  rw [if_pos]
  · rfl
  · intro v hv
    simp only [List.mem_cons, List.not_mem_nil, or_false] at hv
    rcases hv with rfl | rfl | rfl | rfl | rfl | rfl <;> norm_num

/-- C8: `analyze` on `[1, 2, 4, 8, 16, 32]` selects the EXP model with
amplitude exactly 1, rate exactly log 2 and score exactly 1.0 (the
log-transformed data is perfectly linear), strictly beating the LINEAR
candidate (201/245) and the QUAD candidate (433/804). -/
theorem analyze_pow2_selects_exp :
    analyze [(1 : ℝ), 2, 4, 8, 16, 32] =
      ⟨"EXP", 1, .exponential 1 (Real.log 2)⟩ ∧
    (linCand [(1 : ℝ), 2, 4, 8, 16, 32]).r2 < 1 ∧
    (quadCand [(1 : ℝ), 2, 4, 8, 16, 32]).r2 < 1 := by
  refine ⟨?_, ?_, ?_⟩
  · show pickFirst (linCand [(1 : ℝ), 2, 4, 8, 16, 32])
      (restCands [(1 : ℝ), 2, 4, 8, 16, 32]) = _
    rw [hrest6, hlin6, hquad6, hexp6]
    norm_num [pickFirst]
  · rw [hlin6]; norm_num
  · rw [hquad6]; norm_num



/-- C7: `parse` is a total function of the input string in this model
(each operation of its body is total, so the blanket except branch
returning `([0], 1)` is unreachable here), and whenever the token loop
accepts zero samples it returns the sentinel singleton `[0]` paired
with the accumulated rejected-token count — never an empty sequence;
when at least one sample is accepted the scan result is returned
unchanged. -/
theorem parse_sentinel_total :
    ∀ raw : String,
      (parse raw).1 ≠ [] ∧
      ((parseScan raw).1 = [] → parse raw = ([0], (parseScan raw).2)) ∧
      ((parseScan raw).1 ≠ [] → parse raw = parseScan raw) := by
  intro raw
  refine ⟨?_, ?_, ?_⟩
  · simp only [parse]
    split
    · simp
    · next h => exact h
  · intro h
    simp only [parse]
    rw [if_pos h]
  · intro h
    simp only [parse]
    rw [if_neg h]

/-- Witness for C7 on the input string NULL, whose only token is a
missing-value marker. -/
theorem parse_sentinel_total_witness :
    ((parseScan "NULL").1 = []) ∧ parse "NULL" = ([0], (parseScan "NULL").2) := by
  have h : (parseScan "NULL").1 = [] := by decide
  exact ⟨h, (parse_sentinel_total "NULL").2.1 h⟩

end Prism
